import Mathlib

/-!
Verification of the k-mer analysis pipeline (`src/main.rs`): sliding-window
k-mer extraction (`generate_kmers`), frequency counting (`count_kmers`) and
De Bruijn-style adjacency-graph construction (`DeBruijnGraph::new`).

Strings are modelled as `List Char`.  A Rust function that can panic is
embedded with result type `Option _`, where `none` models a panic:
`generate_kmers` panics when `k` exceeds the sequence length (the unsigned
subtraction `dna_sequence.len() - k` underflows, or the slice `[i..i+k]`
runs out of bounds), and `DeBruijnGraph::new` panics on an empty k-mer
(`kmer.len() - 1` underflows, or `split_at` goes out of bounds).

A Rust `HashMap` is embedded as an association list kept in first-insertion
key order, each key occurring once; this is a deterministic representative
of the hash map, whose value semantics is exposed through `hmFind` /
`dbgFind` (lookup) below.
-/

namespace KmerAnalysis

/-- A Rust `String` / `&str`, modelled as its character list. -/
abbrev Str := List Char

/-- Embedding of `generate_kmers` (src/main.rs lines 18-24):
`for i in 0..=dna_sequence.len() - k { kmers.push(dna_sequence[i..i+k]) }`.
When `k > dna_sequence.len()` the unsigned subtraction underflows and the
program panics, modelled as `none`.  Otherwise the loop pushes the slice
`dna_sequence[i..i+k]` for every `i` in `0 ..= len - k`. -/
def generate_kmers (dna_sequence : Str) (k : Nat) : Option (List Str) :=
  if k ≤ dna_sequence.length then
    some ((List.range (dna_sequence.length - k + 1)).map
      (fun i => (dna_sequence.drop i).take k))
  else
    none

/-- One step of `count_kmers`'s loop body
`*kmer_counts.entry(kmer).or_insert(0) += 1`: increment the entry at `key`,
inserting it with value `1` if absent. -/
def hmInc (m : List (Str × Nat)) (key : Str) : List (Str × Nat) :=
  match m with
  | [] => [(key, 1)]
  | (k0, v) :: rest =>
    if k0 = key then (k0, v + 1) :: rest else (k0, v) :: hmInc rest key

/-- Embedding of `count_kmers` (src/main.rs lines 30-36): fold the k-mer
list into a frequency map. -/
def count_kmers (kmers : List Str) : List (Str × Nat) :=
  kmers.foldl hmInc []

/-- `HashMap::get` on the frequency map. -/
def hmFind (m : List (Str × Nat)) (key : Str) : Option Nat :=
  match m with
  | [] => none
  | (k0, v) :: rest => if k0 = key then some v else hmFind rest key

/-- One step of `DeBruijnGraph::new`'s loop body
`edges.entry(node.to_string()).or_insert_with(Vec::new).push(next.to_string())`:
append `next` to the vector at `node`, inserting an empty vector first if
the key is absent. -/
def dbgInsert (m : List (Str × List Str)) (node next : Str) :
    List (Str × List Str) :=
  match m with
  | [] => [(node, [next])]
  | (k0, v) :: rest =>
    if k0 = node then (k0, v ++ [next]) :: rest
    else (k0, v) :: dbgInsert rest node next

/-- The loop of `DeBruijnGraph::new` (src/main.rs lines 49-67) with
accumulator `edges`.  For each k-mer, `kmer.split_at(kmer.len() - 1)`
yields `node` (all but the last character) and `next` (the last character
as a one-character string); on an empty k-mer `kmer.len() - 1` underflows
and the program panics, modelled as `none`. -/
def buildEdges (edges : List (Str × List Str)) (kmers : List Str) :
    Option (List (Str × List Str)) :=
  match kmers with
  | [] => some edges
  | kmer :: rest =>
    if kmer.length = 0 then none
    else
      buildEdges
        (dbgInsert edges (kmer.take (kmer.length - 1))
          (kmer.drop (kmer.length - 1))) rest

/-- Embedding of the constructor `DeBruijnGraph::new`. -/
def DeBruijnGraph.new (kmers : List Str) : Option (List (Str × List Str)) :=
  buildEdges [] kmers

/-- `HashMap::get` on the adjacency graph. -/
def dbgFind (m : List (Str × List Str)) (key : Str) : Option (List Str) :=
  match m with
  | [] => none
  | (k0, v) :: rest => if k0 = key then some v else dbgFind rest key

/-- The keys of an embedded map, in first-insertion order. -/
def mapKeys {β : Type} (m : List (Str × β)) : List Str :=
  m.map Prod.fst

/-- Sum of all counts in a frequency map. -/
def sumValues (m : List (Str × Nat)) : Nat :=
  (m.map Prod.snd).sum

/-- Sum of the lengths of all adjacency lists in a graph. -/
def sumLens (m : List (Str × List Str)) : Nat :=
  (m.map (fun p => p.snd.length)).sum

/-! ### Basic facts about `generate_kmers` -/

theorem generate_kmers_eq_some {s : Str} {k : Nat} {kmers : List Str}
    (hk : generate_kmers s k = some kmers) :
    k ≤ s.length ∧
      kmers = (List.range (s.length - k + 1)).map (fun i => (s.drop i).take k) := by
  unfold generate_kmers at hk
  split at hk
  · exact ⟨by assumption, (Option.some.inj hk).symm⟩
  · cases hk

theorem generate_kmers_length {s : Str} {k : Nat} {kmers : List Str}
    (hk : generate_kmers s k = some kmers) :
    kmers.length = s.length - k + 1 := by
  obtain ⟨-, rfl⟩ := generate_kmers_eq_some hk
  simp

theorem generate_kmers_getElem {s : Str} {k : Nat} {kmers : List Str}
    (hk : generate_kmers s k = some kmers) (i : Nat) (h : i < kmers.length) :
    kmers.get ⟨i, h⟩ = (s.drop i).take k := by
  obtain ⟨-, hkm⟩ := generate_kmers_eq_some hk
  subst hkm
  simp

theorem generate_kmers_mem_length {s : Str} {k : Nat} {kmers : List Str}
    (hk : generate_kmers s k = some kmers) {m : Str} (hm : m ∈ kmers) :
    m.length = k := by
  obtain ⟨hle, rfl⟩ := generate_kmers_eq_some hk
  simp only [List.mem_map, List.mem_range] at hm
  obtain ⟨i, hi, rfl⟩ := hm
  have hik : i + k ≤ s.length := by omega
  simp only [List.length_take, List.length_drop]
  omega

/-! ### Lookup and key lemmas for the frequency map -/

theorem hmFind_hmInc (m : List (Str × Nat)) (key s : Str) :
    hmFind (hmInc m key) s =
      if s = key then some ((hmFind m s).getD 0 + 1) else hmFind m s := by
  induction m with
  | nil =>
    rcases eq_or_ne s key with rfl | h
    · simp [hmInc, hmFind]
    · simp [hmInc, hmFind, h, Ne.symm h]
  | cons p rest ih =>
    obtain ⟨k0, v⟩ := p
    rcases eq_or_ne k0 key with rfl | hk
    · rcases eq_or_ne s k0 with rfl | hs
      · simp [hmInc, hmFind]
      · simp [hmInc, hmFind, hs, Ne.symm hs]
    · rcases eq_or_ne k0 s with rfl | hs
      · simp [hmInc, hmFind, hk, Ne.symm hk]
      · simp [hmInc, hmFind, hk, hs, ih]

theorem hmFind_foldl_hmInc (l : List Str) (m : List (Str × Nat)) (s : Str) :
    hmFind (l.foldl hmInc m) s =
      if s ∈ l then some ((hmFind m s).getD 0 + l.count s) else hmFind m s := by
  induction l generalizing m with
  | nil => simp
  | cons a t ih =>
    rw [List.foldl_cons, ih (hmInc m a)]
    rcases eq_or_ne s a with rfl | hs
    · by_cases ht : s ∈ t
      · rw [if_pos ht, if_pos (List.mem_cons_self s t), hmFind_hmInc, if_pos rfl]
        simp only [Option.getD_some, List.count_cons_self, Option.some.injEq]
        omega
      · rw [if_neg ht, if_pos (List.mem_cons_self s t), hmFind_hmInc, if_pos rfl]
        simp [List.count_cons_self, List.count_eq_zero.2 ht]
    · rw [hmFind_hmInc, if_neg hs]
      simp [List.mem_cons, hs, List.count_cons_of_ne hs]

theorem count_kmers_find (l : List Str) (s : Str) :
    hmFind (count_kmers l) s = if s ∈ l then some (l.count s) else none := by
  have h := hmFind_foldl_hmInc l [] s
  simpa [count_kmers, hmFind] using h

theorem hmFind_isSome_iff (m : List (Str × Nat)) (s : Str) :
    (hmFind m s).isSome = true ↔ s ∈ mapKeys m := by
  induction m with
  | nil => simp [hmFind, mapKeys]
  | cons p rest ih =>
    obtain ⟨k0, v⟩ := p
    rcases eq_or_ne k0 s with rfl | hk
    · simp [hmFind, mapKeys]
    · simp [hmFind, hk, mapKeys, ih, Ne.symm hk]

theorem mapKeys_nil {β : Type} : mapKeys ([] : List (Str × β)) = [] := rfl

theorem mapKeys_cons {β : Type} (k : Str) (v : β) (m : List (Str × β)) :
    mapKeys ((k, v) :: m) = k :: mapKeys m := rfl

theorem mapKeys_hmInc (m : List (Str × Nat)) (key : Str) :
    mapKeys (hmInc m key) =
      if key ∈ mapKeys m then mapKeys m else mapKeys m ++ [key] := by
  induction m with
  | nil => simp [hmInc, mapKeys_nil, mapKeys_cons]
  | cons p rest ih =>
    obtain ⟨k0, v⟩ := p
    rcases eq_or_ne k0 key with rfl | hk
    · simp [hmInc, mapKeys_cons]
    · by_cases hmem : key ∈ mapKeys rest
      · simp [hmInc, hk, mapKeys_cons, hmem, Ne.symm hk, ih]
      · simp [hmInc, hk, mapKeys_cons, hmem, Ne.symm hk, ih]

theorem mapKeys_foldl_nodup (l : List Str) (m : List (Str × Nat))
    (h : (mapKeys m).Nodup) : (mapKeys (l.foldl hmInc m)).Nodup := by
  induction l generalizing m with
  | nil => simpa
  | cons a t ih =>
    rw [List.foldl_cons]
    apply ih
    rw [mapKeys_hmInc]
    by_cases hmem : a ∈ mapKeys m
    · simpa [hmem]
    · simp [hmem, List.nodup_append, h]

theorem count_kmers_keys_nodup (l : List Str) :
    (mapKeys (count_kmers l)).Nodup :=
  mapKeys_foldl_nodup l [] (by simp [mapKeys])

theorem mem_mapKeys_count_kmers (l : List Str) (s : Str) :
    s ∈ mapKeys (count_kmers l) ↔ s ∈ l := by
  rw [← hmFind_isSome_iff, count_kmers_find]
  by_cases h : s ∈ l <;> simp [h]

theorem sumValues_hmInc (m : List (Str × Nat)) (key : Str) :
    sumValues (hmInc m key) = sumValues m + 1 := by
  induction m with
  | nil => simp [hmInc, sumValues]
  | cons p rest ih =>
    obtain ⟨k0, v⟩ := p
    rcases eq_or_ne k0 key with rfl | hk
    · simp [hmInc, sumValues]
      omega
    · simp only [hmInc, if_neg hk, sumValues, List.map_cons, List.sum_cons] at ih ⊢
      omega

theorem sumValues_count_kmers (l : List Str) :
    sumValues (count_kmers l) = l.length := by
  suffices h : ∀ m, sumValues (l.foldl hmInc m) = sumValues m + l.length by
    simpa [count_kmers, sumValues] using h []
  induction l with
  | nil => simp
  | cons a t ih =>
    intro m
    rw [List.foldl_cons, ih (hmInc m a), sumValues_hmInc]
    simp
    omega

theorem count_kmers_length_eq_dedup (l : List Str) :
    (count_kmers l).length = l.dedup.length := by
  have hkeys : (count_kmers l).length = (mapKeys (count_kmers l)).length := by
    simp [mapKeys]
  have hset : (mapKeys (count_kmers l)).toFinset = l.toFinset := by
    ext x
    simp [List.mem_toFinset, mem_mapKeys_count_kmers]
  calc (count_kmers l).length
      = (mapKeys (count_kmers l)).length := hkeys
    _ = (mapKeys (count_kmers l)).toFinset.card :=
        (List.toFinset_card_of_nodup (count_kmers_keys_nodup l)).symm
    _ = l.toFinset.card := by rw [hset]
    _ = l.dedup.length := List.card_toFinset l

theorem dedup_length_eq_iff (l : List Str) :
    l.dedup.length = l.length ↔ l.Nodup := by
  constructor
  · intro h
    have heq := (List.dedup_sublist l).eq_of_length h
    rw [← heq]
    exact List.nodup_dedup l
  · intro h
    rw [List.dedup_eq_self.2 h]

/-! ### Lemmas for the De Bruijn graph construction -/

/-- The node key the loop derives from a k-mer: all but its last character
(the first component of `kmer.split_at(kmer.len() - 1)`). -/
def nodeOf (kmer : Str) : Str := kmer.take (kmer.length - 1)

/-- The edge label the loop derives from a k-mer: its last character as a
one-character string (the second component of the `split_at`). -/
def labelOf (kmer : Str) : Str := kmer.drop (kmer.length - 1)

/-- Edge labels contributed at node key `nd` by `kmers`, in input order. -/
def labelsAt (kmers : List Str) (nd : Str) : List Str :=
  (kmers.filter (fun s => nodeOf s = nd)).map labelOf

theorem buildEdges_cons (edges : List (Str × List Str)) (kmer : Str)
    (rest : List Str) (h : kmer ≠ []) :
    buildEdges edges (kmer :: rest) =
      buildEdges (dbgInsert edges (nodeOf kmer) (labelOf kmer)) rest := by
  have hlen : ¬ kmer.length = 0 := by simpa using h
  simp [buildEdges, hlen, nodeOf, labelOf]

theorem dbgFind_dbgInsert (m : List (Str × List Str)) (node next s : Str) :
    dbgFind (dbgInsert m node next) s =
      if s = node then some ((dbgFind m s).getD [] ++ [next])
      else dbgFind m s := by
  induction m with
  | nil =>
    rcases eq_or_ne s node with rfl | h
    · simp [dbgInsert, dbgFind]
    · simp [dbgInsert, dbgFind, h, Ne.symm h]
  | cons p rest ih =>
    obtain ⟨k0, v⟩ := p
    rcases eq_or_ne k0 node with rfl | hk
    · rcases eq_or_ne s k0 with rfl | hs
      · simp [dbgInsert, dbgFind]
      · simp [dbgInsert, dbgFind, hs, Ne.symm hs]
    · rcases eq_or_ne k0 s with rfl | hs
      · simp [dbgInsert, dbgFind, hk, Ne.symm hk]
      · simp [dbgInsert, dbgFind, hk, hs, ih]

theorem labelsAt_cons (kmer : Str) (rest : List Str) (nd : Str) :
    labelsAt (kmer :: rest) nd =
      (if nodeOf kmer = nd then [labelOf kmer] else []) ++ labelsAt rest nd := by
  by_cases h : nodeOf kmer = nd <;> simp [labelsAt, List.filter_cons, h]

theorem buildEdges_find (kmers : List Str) :
    ∀ (edges g : List (Str × List Str)), buildEdges edges kmers = some g →
    ∀ nd : Str,
      (dbgFind g nd).getD [] = (dbgFind edges nd).getD [] ++ labelsAt kmers nd ∧
      ((dbgFind g nd).isSome = true ↔
        (dbgFind edges nd).isSome = true ∨ labelsAt kmers nd ≠ []) := by
  induction kmers with
  | nil =>
    intro edges g hg nd
    obtain rfl : edges = g := by simpa [buildEdges] using hg
    simp [labelsAt]
  | cons kmer rest ih =>
    intro edges g hg nd
    by_cases hk : kmer = []
    · subst hk
      simp [buildEdges] at hg
    · rw [buildEdges_cons edges kmer rest hk] at hg
      obtain ⟨h1, h2⟩ := ih (dbgInsert edges (nodeOf kmer) (labelOf kmer)) g hg nd
      rw [labelsAt_cons]
      rcases eq_or_ne (nodeOf kmer) nd with he | he
      · rw [if_pos he]
        constructor
        · rw [h1, dbgFind_dbgInsert, if_pos he.symm]
          simp
        · rw [h2, dbgFind_dbgInsert, if_pos he.symm]
          simp
      · rw [if_neg he]
        constructor
        · rw [h1, dbgFind_dbgInsert, if_neg (fun hh => he hh.symm)]
          simp
        · rw [h2, dbgFind_dbgInsert, if_neg (fun hh => he hh.symm)]
          simp

theorem buildEdges_some_of_ne_nil (kmers : List Str) :
    ∀ edges : List (Str × List Str), (∀ s ∈ kmers, s ≠ []) →
      ∃ g, buildEdges edges kmers = some g := by
  induction kmers with
  | nil => intro edges _; exact ⟨edges, rfl⟩
  | cons kmer rest ih =>
    intro edges h
    rw [buildEdges_cons edges kmer rest (h kmer (List.mem_cons_self kmer rest))]
    exact ih _ (fun s hs => h s (List.mem_cons_of_mem kmer hs))

theorem buildEdges_none_of_mem_nil (kmers : List Str) (hmem : [] ∈ kmers) :
    ∀ edges : List (Str × List Str), buildEdges edges kmers = none := by
  induction kmers with
  | nil => cases hmem
  | cons kmer rest ih =>
    intro edges
    rcases List.mem_cons.1 hmem with he | he
    · rw [← he]
      simp [buildEdges]
    · by_cases hk : kmer = []
      · subst hk
        simp [buildEdges]
      · rw [buildEdges_cons edges kmer rest hk]
        exact ih he _

theorem sumLens_dbgInsert (m : List (Str × List Str)) (node next : Str) :
    sumLens (dbgInsert m node next) = sumLens m + 1 := by
  induction m with
  | nil => simp [dbgInsert, sumLens]
  | cons p rest ih =>
    obtain ⟨k0, v⟩ := p
    rcases eq_or_ne k0 node with rfl | hk
    · simp [dbgInsert, sumLens]
      omega
    · simp only [dbgInsert, if_neg hk, sumLens, List.map_cons, List.sum_cons] at ih ⊢
      omega

theorem buildEdges_sumLens (kmers : List Str) :
    ∀ (edges g : List (Str × List Str)), buildEdges edges kmers = some g →
      sumLens g = sumLens edges + kmers.length := by
  induction kmers with
  | nil =>
    intro edges g hg
    obtain rfl : edges = g := by simpa [buildEdges] using hg
    simp
  | cons kmer rest ih =>
    intro edges g hg
    by_cases hk : kmer = []
    · subst hk
      simp [buildEdges] at hg
    · rw [buildEdges_cons edges kmer rest hk] at hg
      rw [ih _ g hg, sumLens_dbgInsert]
      simp
      omega

/-! ### Claim theorems -/

/-- C1: for every sequence `s` of length `n` and every `k` with
`1 ≤ k ≤ n`, `generate_kmers` returns exactly `n - k + 1` k-mers in
sliding-window order: the `i`-th k-mer equals `s[i .. i+k]` and has length
`k`, and every pair of consecutive k-mers overlaps in `k - 1` characters
(the tail of k-mer `i` is the `(k-1)`-prefix of k-mer `i+1`). -/
theorem extract_sliding_window (s : Str) (k : Nat) (h1 : 1 ≤ k)
    (h2 : k ≤ s.length) (kmers : List Str)
    (hk : generate_kmers s k = some kmers) :
    kmers.length = s.length - k + 1 ∧
    (∀ (i : Nat) (h : i < kmers.length),
      kmers.get ⟨i, h⟩ = (s.drop i).take k ∧ (kmers.get ⟨i, h⟩).length = k) ∧
    (∀ (i : Nat) (h : i + 1 < kmers.length),
      (kmers.get ⟨i, Nat.lt_of_succ_lt h⟩).drop 1 =
        (kmers.get ⟨i + 1, h⟩).take (k - 1)) := by
  have hlen := generate_kmers_length hk
  refine ⟨hlen, ?_, ?_⟩
  · intro i h
    have hget := generate_kmers_getElem hk i h
    refine ⟨hget, ?_⟩
    rw [hget]
    simp only [List.length_take, List.length_drop]
    omega
  · intro i h
    rw [generate_kmers_getElem hk i (Nat.lt_of_succ_lt h),
      generate_kmers_getElem hk (i + 1) h,
      List.drop_take, List.drop_drop, List.take_take,
      min_eq_left (Nat.sub_le k 1)]

/-- Witness for C1 at sequence `"ACGT"`, `k = 2`. -/
theorem extract_sliding_window_witness :
    1 ≤ 2 ∧ 2 ≤ "ACGT".toList.length ∧
    generate_kmers "ACGT".toList 2 = some [['A','C'], ['C','G'], ['G','T']] ∧
    [['A','C'], ['C','G'], ['G','T']].length = "ACGT".toList.length - 2 + 1 :=
  ⟨by decide, by decide, by decide,
    (extract_sliding_window "ACGT".toList 2 (by decide) (by decide)
      [['A','C'], ['C','G'], ['G','T']] (by decide)).1⟩

/-- C2: the spec demands that `generate_kmers` with `k == 0` or `k > n`
fail with a recoverable `InvalidWindowSize` error and never panic.  The
code does neither: for `k > n` the unsigned subtraction
`dna_sequence.len() - k` underflows and the program panics (modelled as
`none`), and for `k == 0` the function succeeds, returning `n + 1` empty
strings instead of any error.  This theorem evaluates the embedding at the
failing inputs `("AC", k = 3)` and `("AC", k = 0)`. -/
theorem extract_invalid_window_behavior :
    generate_kmers ['A', 'C'] 3 = none ∧
    generate_kmers ['A', 'C'] 0 = some [[], [], []] := by decide

/-- C3: for every list of k-mers of common length `k ≥ 1`,
`DeBruijnGraph::new` succeeds and maps each node key `nd` to exactly the
ordered list of final single characters (`s[k-1 .. k]`, i.e. `drop (k-1)`)
of those k-mers whose first `k - 1` characters equal `nd`, one entry per
occurrence (never deduplicated); a key is present iff some k-mer
contributes to it. -/
theorem build_adjacency (kmers : List Str) (k : Nat) (h1 : 1 ≤ k)
    (hlen : ∀ s ∈ kmers, s.length = k) :
    ∃ g, DeBruijnGraph.new kmers = some g ∧
      ∀ nd : Str, dbgFind g nd =
        if kmers.filter (fun s => s.take (k - 1) = nd) = [] then none
        else some ((kmers.filter (fun s => s.take (k - 1) = nd)).map
          (fun s => s.drop (k - 1))) := by
  have hne : ∀ s ∈ kmers, s ≠ [] := by
    intro s hs h
    have hsk := hlen s hs
    rw [h] at hsk
    simp at hsk
    omega
  obtain ⟨g, hg⟩ := buildEdges_some_of_ne_nil kmers [] hne
  refine ⟨g, hg, ?_⟩
  intro nd
  obtain ⟨hA, hB⟩ := buildEdges_find kmers [] g hg nd
  simp only [dbgFind, Option.getD_none, List.nil_append, Option.isSome_none,
    Bool.false_eq_true, false_or] at hA hB
  have hfilter : kmers.filter (fun s => nodeOf s = nd) =
      kmers.filter (fun s => s.take (k - 1) = nd) := by
    apply List.filter_congr
    intro s hs
    simp [nodeOf, hlen s hs]
  have hmap : labelsAt kmers nd =
      (kmers.filter (fun s => s.take (k - 1) = nd)).map
        (fun s => s.drop (k - 1)) := by
    rw [labelsAt, hfilter]
    apply List.map_congr_left
    intro s hs
    have hsk : s.length = k := hlen s (List.mem_of_mem_filter hs)
    simp [labelOf, hsk]
  rw [hmap] at hA hB
  by_cases hnil : kmers.filter (fun s => s.take (k - 1) = nd) = []
  · rw [if_pos hnil]
    rw [hnil] at hB
    simp only [List.map_nil, ne_eq, not_true_eq_false, iff_false] at hB
    exact Option.not_isSome_iff_eq_none.1 (by simpa using hB)
  · rw [if_neg hnil]
    have hsome : (dbgFind g nd).isSome = true := by
      apply hB.2
      simp [hnil]
    obtain ⟨v, hv⟩ := Option.isSome_iff_exists.1 hsome
    rw [hv] at hA ⊢
    simp only [Option.getD_some] at hA
    rw [hA]

/-- Witness for C3 at the k-mer list `["AC", "CA"]`, `k = 2`. -/
theorem build_adjacency_witness :
    1 ≤ 2 ∧ (∀ s ∈ [['A','C'], ['C','A']], s.length = 2) ∧
    (∃ g, DeBruijnGraph.new [['A','C'], ['C','A']] = some g ∧
      ∀ nd : Str, dbgFind g nd =
        if [['A','C'], ['C','A']].filter (fun s => s.take (2 - 1) = nd) = []
        then none
        else some (([['A','C'], ['C','A']].filter
          (fun s => s.take (2 - 1) = nd)).map (fun s => s.drop (2 - 1)))) :=
  ⟨by decide, by decide,
    build_adjacency [['A','C'], ['C','A']] 2 (by decide) (by decide)⟩

/-- C4: `count_kmers` returns a map whose keys are exactly the distinct
k-mers of the input, whose value at each present key is that k-mer's
number of occurrences (positive whenever the key is present), and the
empty input yields the empty map. -/
theorem count_frequency (kmers : List Str) (s : Str) :
    (hmFind (count_kmers kmers) s =
      if s ∈ kmers then some (kmers.count s) else none) ∧
    (s ∈ mapKeys (count_kmers kmers) ↔ s ∈ kmers) ∧
    (mapKeys (count_kmers kmers)).Nodup ∧
    (s ∈ kmers → 1 ≤ kmers.count s) ∧
    count_kmers [] = [] :=
  ⟨count_kmers_find kmers s, mem_mapKeys_count_kmers kmers s,
    count_kmers_keys_nodup kmers,
    fun h => List.count_pos_iff.2 h, rfl⟩

/-- Witness for C4 at the k-mer list `["A", "A"]`, key `"A"`. -/
theorem count_frequency_witness :
    (hmFind (count_kmers [['A'], ['A']]) ['A'] =
      if ['A'] ∈ [['A'], ['A']] then some ([['A'], ['A']].count ['A'])
      else none) ∧
    (['A'] ∈ [['A'], ['A']] → 1 ≤ [['A'], ['A']].count ['A']) :=
  ⟨(count_frequency [['A'], ['A']] ['A']).1,
    (count_frequency [['A'], ['A']] ['A']).2.2.2.1⟩

/-- C5: for every sequence of length `n` and `1 ≤ k ≤ n`, the frequency
map over the extracted k-mers has counts summing to `n - k + 1` and at
most `n - k + 1` keys, with equality exactly when all k-mers are
distinct. -/
theorem count_invariants (s : Str) (k : Nat) (h1 : 1 ≤ k)
    (h2 : k ≤ s.length) (kmers : List Str)
    (hk : generate_kmers s k = some kmers) :
    sumValues (count_kmers kmers) = s.length - k + 1 ∧
    (count_kmers kmers).length ≤ s.length - k + 1 ∧
    ((count_kmers kmers).length = s.length - k + 1 ↔ kmers.Nodup) := by
  have hlen := generate_kmers_length hk
  refine ⟨?_, ?_, ?_⟩
  · rw [sumValues_count_kmers, hlen]
  · rw [count_kmers_length_eq_dedup, ← hlen]
    exact (List.dedup_sublist kmers).length_le
  · rw [count_kmers_length_eq_dedup, ← hlen, dedup_length_eq_iff]

/-- Witness for C5 at sequence `"ACGA"`, `k = 2` (all k-mers distinct). -/
theorem count_invariants_witness :
    1 ≤ 2 ∧ 2 ≤ "ACGA".toList.length ∧
    generate_kmers "ACGA".toList 2 = some [['A','C'], ['C','G'], ['G','A']] ∧
    sumValues (count_kmers [['A','C'], ['C','G'], ['G','A']]) =
      "ACGA".toList.length - 2 + 1 :=
  ⟨by decide, by decide, by decide,
    (count_invariants "ACGA".toList 2 (by decide) (by decide)
      [['A','C'], ['C','G'], ['G','A']] (by decide)).1⟩

/-- C6: for every sequence of length `n` and `1 ≤ k ≤ n`, the adjacency
graph built from the extracted k-mers has edge-label list lengths summing
to `n - k + 1`. -/
theorem graph_edge_count (s : Str) (k : Nat) (h1 : 1 ≤ k)
    (h2 : k ≤ s.length) (kmers : List Str)
    (hk : generate_kmers s k = some kmers) :
    ∃ g, DeBruijnGraph.new kmers = some g ∧
      sumLens g = s.length - k + 1 := by
  have hne : ∀ m ∈ kmers, m ≠ [] := by
    intro m hm hnil
    have hmk := generate_kmers_mem_length hk hm
    rw [hnil] at hmk
    simp at hmk
    omega
  obtain ⟨g, hg⟩ := buildEdges_some_of_ne_nil kmers [] hne
  refine ⟨g, hg, ?_⟩
  rw [buildEdges_sumLens kmers [] g hg, generate_kmers_length hk]
  simp [sumLens]

/-- Witness for C6 at sequence `"ACGT"`, `k = 2`. -/
theorem graph_edge_count_witness :
    1 ≤ 2 ∧ 2 ≤ "ACGT".toList.length ∧
    generate_kmers "ACGT".toList 2 = some [['A','C'], ['C','G'], ['G','T']] ∧
    (∃ g, DeBruijnGraph.new [['A','C'], ['C','G'], ['G','T']] = some g ∧
      sumLens g = "ACGT".toList.length - 2 + 1) :=
  ⟨by decide, by decide, by decide,
    graph_edge_count "ACGT".toList 2 (by decide) (by decide)
      [['A','C'], ['C','G'], ['G','T']] (by decide)⟩

/-- C7: end-to-end run on sequence `"ACGTACGT"` with `k = 3`: the six
extracted k-mers, the frequency map `{ACG:2, CGT:2, GTA:1, TAC:1}` and the
adjacency map `{AC:[G,G], CG:[T,T], GT:[A], TA:[C]}` (maps shown in
first-insertion key order). -/
theorem end_to_end_acgtacgt :
    generate_kmers "ACGTACGT".toList 3 =
      some [['A','C','G'], ['C','G','T'], ['G','T','A'], ['T','A','C'],
            ['A','C','G'], ['C','G','T']] ∧
    count_kmers [['A','C','G'], ['C','G','T'], ['G','T','A'], ['T','A','C'],
        ['A','C','G'], ['C','G','T']] =
      [(['A','C','G'], 2), (['C','G','T'], 2), (['G','T','A'], 1),
       (['T','A','C'], 1)] ∧
    DeBruijnGraph.new [['A','C','G'], ['C','G','T'], ['G','T','A'],
        ['T','A','C'], ['A','C','G'], ['C','G','T']] =
      some [(['A','C'], [['G'], ['G']]), (['C','G'], [['T'], ['T']]),
            (['G','T'], [['A']]), (['T','A'], [['C']])] := by decide

theorem buildEdges_all_length_one (rest : List Str) :
    ∀ l : List Str, (∀ s ∈ rest, s.length = 1) →
      buildEdges [([], l)] rest = some [([], l ++ rest)] := by
  induction rest with
  | nil => intro l _; simp [buildEdges]
  | cons kmer tail ih =>
    intro l h
    have hk1 : kmer.length = 1 := h kmer (List.mem_cons_self kmer tail)
    have hne : kmer ≠ [] := by
      intro hnil
      rw [hnil] at hk1
      simp at hk1
    rw [buildEdges_cons _ kmer tail hne]
    have hnode : nodeOf kmer = [] := by simp [nodeOf, hk1]
    have hlab : labelOf kmer = kmer := by simp [labelOf, hk1]
    rw [hnode, hlab]
    have hins : dbgInsert [([], l)] [] kmer = [([], l ++ [kmer])] := by
      simp [dbgInsert]
    rw [hins, ih (l ++ [kmer]) (fun s hs => h s (List.mem_cons_of_mem kmer hs))]
    simp

/-- C8: in the degenerate case `k = 1` (every k-mer a single character),
`DeBruijnGraph::new` collapses everything under the empty-string node key,
whose ordered label list is the whole k-mer list itself. -/
theorem build_degenerate_k1 (kmers : List Str) (hne : kmers ≠ [])
    (h1 : ∀ s ∈ kmers, s.length = 1) :
    DeBruijnGraph.new kmers = some [([], kmers)] := by
  cases kmers with
  | nil => cases hne rfl
  | cons kmer rest =>
    have hk1 : kmer.length = 1 := h1 kmer (List.mem_cons_self kmer rest)
    have hkne : kmer ≠ [] := by
      intro hnil
      rw [hnil] at hk1
      simp at hk1
    rw [DeBruijnGraph.new, buildEdges_cons [] kmer rest hkne]
    have hnode : nodeOf kmer = [] := by simp [nodeOf, hk1]
    have hlab : labelOf kmer = kmer := by simp [labelOf, hk1]
    rw [hnode, hlab]
    have hins : dbgInsert [] [] kmer = [([], [kmer])] := by simp [dbgInsert]
    rw [hins,
      buildEdges_all_length_one rest [kmer]
        (fun s hs => h1 s (List.mem_cons_of_mem kmer hs))]
    simp

/-- Witness for C8: sequence `"ACGT"` with `k = 1` yields the four
single-character k-mers, and the graph has exactly one key, the empty
string, mapping to `["A", "C", "G", "T"]` in order. -/
theorem build_degenerate_k1_witness :
    generate_kmers "ACGT".toList 1 = some [['A'], ['C'], ['G'], ['T']] ∧
    DeBruijnGraph.new [['A'], ['C'], ['G'], ['T']] =
      some [([], [['A'], ['C'], ['G'], ['T']])] :=
  ⟨by decide,
    build_degenerate_k1 [['A'], ['C'], ['G'], ['T']] (by decide) (by decide)⟩

/-- C9: `count_kmers` and `DeBruijnGraph::new` are deterministic (re-running
them on the same input yields value-equal results), and `count_kmers` is
order-independent: permuting the input list leaves the frequency map's
lookup function unchanged. -/
theorem count_build_deterministic (l l1 l2 : List Str) (h : l1.Perm l2) :
    count_kmers l = count_kmers l ∧
    DeBruijnGraph.new l = DeBruijnGraph.new l ∧
    ∀ t : Str, hmFind (count_kmers l1) t = hmFind (count_kmers l2) t := by
  refine ⟨rfl, rfl, fun t => ?_⟩
  rw [count_kmers_find, count_kmers_find]
  by_cases hm : t ∈ l1
  · rw [if_pos hm, if_pos (h.mem_iff.1 hm)]
    simp only [List.count]
    exact congrArg some (List.Perm.countP_eq _ h)
  · rw [if_neg hm, if_neg (fun hh => hm (h.mem_iff.2 hh))]

/-- Witness for C9 at `l = ["A"]` and the permuted lists
`["A", "C"]` / `["C", "A"]`, looked up at `"A"`. -/
theorem count_build_deterministic_witness :
    [['A'], ['C']].Perm [['C'], ['A']] ∧
    hmFind (count_kmers [['A'], ['C']]) ['A'] =
      hmFind (count_kmers [['C'], ['A']]) ['A'] :=
  ⟨by decide,
    (count_build_deterministic [['A']] [['A'], ['C']] [['C'], ['A']]
      (by decide)).2.2 ['A']⟩

/-- C10: `DeBruijnGraph::new` is total exactly on lists of non-empty
k-mers: it succeeds on every list of non-empty strings, but any list
containing an empty string makes `kmer.len() - 1` underflow, a panic
(modelled as `none`); and `generate_kmers` never emits an empty k-mer when
`k ≥ 1`, which is why the pipeline never hits this panic. -/
theorem build_requires_nonempty_kmers (kmers : List Str) :
    ((∀ s ∈ kmers, s ≠ []) → ∃ g, DeBruijnGraph.new kmers = some g) ∧
    ([] ∈ kmers → DeBruijnGraph.new kmers = none) ∧
    (∀ (seq : Str) (k : Nat) (km : List Str), 1 ≤ k →
      generate_kmers seq k = some km → ∀ s ∈ km, s ≠ []) := by
  refine ⟨fun h => buildEdges_some_of_ne_nil kmers [] h,
    fun h => buildEdges_none_of_mem_nil kmers h [], ?_⟩
  intro seq k km hk1 hgen s hs hnil
  have hsk := generate_kmers_mem_length hgen hs
  rw [hnil] at hsk
  simp at hsk
  omega

/-- Witness for C10: the graph construction panics on `["A", ""]` and
succeeds on `["A", "C"]`. -/
theorem build_requires_nonempty_kmers_witness :
    DeBruijnGraph.new [['A'], []] = none ∧
    (∃ g, DeBruijnGraph.new [['A'], ['C']] = some g) :=
  ⟨(build_requires_nonempty_kmers [['A'], []]).2.1 (by decide),
    (build_requires_nonempty_kmers [['A'], ['C']]).1 (by decide)⟩

end KmerAnalysis
